import Mathlib

/-!
# Endstone hook framework: symbol index, hook manager and detours

A shallow embedding of `src/lib/hook/hook.h` (symbol lookup, the `manager`
constructor, move constructor and destructor) and of the two event-emitting
detours of `src/endstone_runtime/bedrock/network/server_network_handler.cpp`.

Conventions of the embedding:

* `void *` is a natural number, `nullptr` is `0`.
* The process-wide `internals` singleton is passed explicitly; a function that
  reaches it through `get_internals()` takes it and gives it back.
* A C++ exception is the `error` side of an `Except`; state that lives in the
  singleton or in the patch engine survives the exception, so it is returned
  next to the `Except`.
* Calls into MinHook are recorded in a request log, and MinHook answers through
  an `Engine` that sees the log so far.
-/

namespace endstone.hook

/-! ## Addresses and symbol tables -/

/-- A machine address (`void *`); `0` is the null pointer. -/
abbrev Addr := Nat

/-- The container type of `internals.originals` and `internals.detours`. Its
declaration is in `internal.h`; the code uses it through `find`, `insert`,
`operator[]` and a range-for, the interface of a standard unique-key
associative container from `std::string` to `void *`. Entries are kept in the
order they were added; the order a range-for visits them is a separate
parameter of the constructor. -/
abbrev Table := List (String × Addr)

namespace Table

/-- Member `find(name)`: the mapped address, `none` for `end()`. -/
def find : Table → String → Option Addr
  | [], _ => none
  | (k, v) :: rest, name => if k = name then some v else find rest name

/-- Member `insert({name, a})`: adds the entry only when no entry with an
equal key exists, otherwise leaves the container as it is. -/
def insert (t : Table) (name : String) (a : Addr) : Table :=
  match t.find name with
  | some _ => t
  | none => t ++ [(name, a)]

/-- The statement `t[name] = a`: overwrites the mapped value of an existing
key, adds the entry when the key is new. -/
def assign : Table → String → Addr → Table
  | [], name, a => [(name, a)]
  | (k, v) :: rest, name, a =>
    if k = name then (k, a) :: rest else (k, v) :: assign rest name a

/-- The keys of a table, in entry order. -/
def keys (t : Table) : List String := t.map Prod.fst

end Table

/-- The singleton returned by `internal::get_internals()`. -/
structure internals where
  originals : Table
  detours : Table
deriving DecidableEq, Repr

/-! ## The patch engine boundary -/

/-- Modelled from the spec: the status set of the patch engine (`MH_STATUS` of
`MinHook.h`, a third-party header), "a small closed set {Ok, AlreadyRedirected,
NotInitialized, OtherFailure(code)}". -/
inductive MH_STATUS where
  | MH_OK
  | AlreadyRedirected
  | NotInitialized
  | OtherFailure (code : Int)
deriving DecidableEq, Repr

/-- The MinHook entry points the code calls, with their arguments. -/
inductive Request where
  | MH_Initialize
  | MH_CreateHook (target detour : Addr)
  | MH_EnableHook_ALL
  | MH_DisableHook_ALL
  | MH_Uninitialize
deriving DecidableEq, Repr

/-- The patch engine as seen from the caller: the status it answers to a
request, and the trampoline address `MH_CreateHook` stores through its third
argument, both as functions of the requests received so far. -/
structure Engine where
  status : List Request → Request → MH_STATUS
  original : List Request → Addr → Addr → Addr

/-- The exceptions thrown in `hook.h`. -/
inductive HookError where
  /-- The `std::runtime_error("Symbol " + name + " not found.")` of `sym_from_name`. -/
  | symbol_not_found (name : String)
  /-- The `std::system_error(GetLastError(), system_category(), "UnDecorateSymbolName failed")`. -/
  | undecorate_failed (last_error : Nat)
  /-- The `std::system_error(status, internal::minhook_category())`. -/
  | minhook (status : MH_STATUS)
deriving DecidableEq, Repr

/-! ## `sym_from_name` -/

/-- The function `sym_from_name` of `hook.h`, lines 12-22. -/
def sym_from_name (s : internals) (name : String) : Except HookError Addr × internals :=
  match s.originals.find name with
  | none => (.error (.symbol_not_found name), s)
  | some a => (.ok a, s)

/-! ## The hook manager -/

/-- The fields of a `SYMBOL_INFO` the enumeration callbacks read. -/
structure SYMBOL_INFO where
  Name : String
  Address : Nat
deriving DecidableEq, Repr

/-- The expression `static_cast<char *>(module_base) + (info->Address - sym_module_base)`:
a 64-bit unsigned difference added to a 64-bit pointer. -/
def rebase (module_base sym_module_base address : Nat) : Addr :=
  (module_base + (address + (2 ^ 64 - sym_module_base % 2 ^ 64)) % 2 ^ 64) % 2 ^ 64

/-- The first `enum_symbols` callback (lines 105-109), run over the symbols of
the framework module in enumeration order. -/
def enum_detours (module_base sym_module_base : Nat) :
    List SYMBOL_INFO → internals → internals
  | [], s => s
  | info :: rest, s =>
    enum_detours module_base sym_module_base rest
      { s with detours := s.detours.insert info.Name (rebase module_base sym_module_base info.Address) }

/-- Lines 114-125 of the second callback: the key a target-module symbol is
stored under. `UnDecorateSymbolName` is the Windows API; it answers the
undecorated name, or the `GetLastError()` code when it returns length `0`. -/
def original_key (UnDecorateSymbolName : String → Except Nat String) (s : internals)
    (name : String) : Except HookError String :=
  match s.detours.find name with
  | some _ => .ok name
  | none =>
    match UnDecorateSymbolName name with
    | .error code => .error (.undecorate_failed code)
    | .ok undecorated => .ok undecorated

/-- The second `enum_symbols` callback (lines 113-129), run over the symbols of
the target module in enumeration order; an exception leaves the callback and
the enumeration. -/
def enum_originals (UnDecorateSymbolName : String → Except Nat String)
    (module_base sym_module_base : Nat) :
    List SYMBOL_INFO → internals → Except HookError Unit × internals
  | [], s => (.ok (), s)
  | info :: rest, s =>
    match original_key UnDecorateSymbolName s info.Name with
    | .error e => (.error e, s)
    | .ok name =>
      enum_originals UnDecorateSymbolName module_base sym_module_base rest
        { s with originals := s.originals.insert name (rebase module_base sym_module_base info.Address) }

/-- The loop of lines 137-149 over the entries of `internals.detours`, in the
order the range-for visits them. -/
def install_loop (eng : Engine) :
    List (String × Addr) → internals → List Request → Except HookError Unit × internals × List Request
  | [], s, log => (.ok (), s, log)
  | (name, detour) :: rest, s, log =>
    match sym_from_name s name with
    | (.error e, s1) => (.error e, s1, log)
    | (.ok target, s1) =>
      let status := eng.status log (.MH_CreateHook target detour)
      let log1 := log ++ [.MH_CreateHook target detour]
      if status ≠ .MH_OK then (.error (.minhook status), s1, log1)
      else
        install_loop eng rest
          { s1 with originals := s1.originals.assign name (eng.original log target detour) } log1

/-- The `MH_CreateHook` request for a (target, detour) pair. -/
def create_request (c : Addr × Addr) : Request := .MH_CreateHook c.1 c.2

/-- The data members of `manager`. -/
structure manager where
  initialized_ : Bool
  h_library_ : Addr
deriving DecidableEq, Repr

/-- What the constructor needs from the process and cannot compute: the module
bases (`internal::get_module_base`, `symbol_handler::load_module`), the symbol
enumerations (`symbol_handler::enum_symbols`), `UnDecorateSymbolName`, the
order in which a range-for visits the entries of a table, and the patch
engine. -/
structure Env where
  framework_base : Nat
  framework_sym_base : Nat
  framework_symbols : List SYMBOL_INFO
  target_base : Nat
  target_sym_base : Nat
  target_symbols : List SYMBOL_INFO
  UnDecorateSymbolName : String → Except Nat String
  iteration : Table → List (String × Addr)
  engine : Engine

/-- The state a run of the constructor leaves behind: whether it returned or
threw, the object's data members at that point, the singleton and the request
log. -/
structure Run where
  outcome : Except HookError Unit
  self : manager
  internals : internals
  log : List Request

/-- The symbol enumeration part of the constructor, lines 97-129. -/
def build_index (env : Env) (s : internals) : Except HookError Unit × internals :=
  enum_originals env.UnDecorateSymbolName env.target_base env.target_sym_base env.target_symbols
    (enum_detours env.framework_base env.framework_sym_base env.framework_symbols s)

/-- The constructor `manager::manager(void *h_library)`, lines 95-157. -/
def manager_ctor (env : Env) (h_library : Addr) (s : internals) (log : List Request) : Run :=
  let self : manager := { initialized_ := false, h_library_ := h_library }
  match build_index env s with
  | (.error e, s1) => { outcome := .error e, self := self, internals := s1, log := log }
  | (.ok (), s1) =>
    let status := env.engine.status log .MH_Initialize
    let log1 := log ++ [.MH_Initialize]
    if status ≠ .MH_OK then
      { outcome := .error (.minhook status), self := self, internals := s1, log := log1 }
    else
      match install_loop env.engine (env.iteration s1.detours) s1 log1 with
      | (.error e, s2, log2) => { outcome := .error e, self := self, internals := s2, log := log2 }
      | (.ok (), s2, log2) =>
        let status := env.engine.status log2 .MH_EnableHook_ALL
        let log3 := log2 ++ [.MH_EnableHook_ALL]
        if status ≠ .MH_OK then
          { outcome := .error (.minhook status), self := self, internals := s2, log := log3 }
        else
          { outcome := .ok (), self := { self with initialized_ := true }, internals := s2, log := log3 }

/-- The move constructor `manager(manager &&other) noexcept`, lines 160-163:
the new object's members take their default member initializers (lines
176-177), the body clears the flag of `other`. The result is the new object
and `other` afterwards. -/
def manager_move (other : manager) : manager × manager :=
  ({ initialized_ := false, h_library_ := 0 }, { other with initialized_ := false })

/-- The destructor body, lines 167-173: the object's members afterwards and
the request log; the statuses MinHook answers are not read. -/
def manager_dtor (self : manager) (log : List Request) : manager × List Request :=
  if self.initialized_ then
    (self, (log ++ [.MH_DisableHook_ALL]) ++ [ Request.MH_Uninitialize])
  else
    (self, log)

end endstone.hook

/-! ## The event-emitting detours of `server_network_handler.cpp` -/

namespace ServerNetworkHandler

/-- The part of an `EndstonePlayer` the detours read. -/
structure EndstonePlayer where
  name : String
deriving DecidableEq, Repr

/-- A `PlayerKickEvent` as the detour uses it: constructed from the player and
the kick message, not cancelled; read back through `isCancelled()` and
`getReason()`. -/
structure PlayerKickEvent where
  player : EndstonePlayer
  reason : String
  cancelled : Bool
deriving DecidableEq, Repr

/-- A `PlayerChatEvent` as the detour uses it: constructed from the player and
the message, not cancelled; read back through `isCancelled()`, `getMessage()`
and `getPlayer()`. -/
structure PlayerChatEvent where
  player : EndstonePlayer
  message : String
  cancelled : Bool
deriving DecidableEq, Repr

/-- The arguments of `disconnectClient` after `this`. -/
structure DisconnectArgs where
  network_id : Nat
  sub_client_id : Nat
  reason : Nat
  message : String
  filtered_message : Option String
  skip_message : Bool
deriving DecidableEq, Repr

/-- What a run of the `disconnectClient` detour does that can be seen from
outside, in order: the event handed to `callEvent`, and the call of the
original through `ENDSTONE_HOOK_CALL_ORIGINAL` with its arguments. -/
inductive DisconnectEffect where
  | callEvent (e : PlayerKickEvent)
  | original (args : DisconnectArgs)
deriving DecidableEq, Repr

/-- The detour `ServerNetworkHandler::disconnectClient`, lines 32-58.
`getPlayer` is `EndstoneServer::getPlayer` (`none` for a null pointer),
`i18n_get` is `getI18n().get(message, nullptr)`, `observers` is what
`getPluginManager().callEvent(e)` does to the event. -/
def disconnectClient (getPlayer : Nat → Nat → Option EndstonePlayer)
    (i18n_get : String → String) (observers : PlayerKickEvent → PlayerKickEvent)
    (a : DisconnectArgs) : List DisconnectEffect :=
  match getPlayer a.network_id a.sub_client_id with
  | none => []
  | some endstone_player =>
    let kick_message := i18n_get a.message
    let e0 : PlayerKickEvent := { player := endstone_player, reason := kick_message, cancelled := false }
    let e := observers e0
    if e.cancelled then [.callEvent e0]
    else
      let kick_message := if e.reason ≠ kick_message then e.reason else a.message
      [.callEvent e0, .original { a with message := kick_message }]

/-- The part of a bedrock `Player` the detour reads. -/
structure Player where
  endstone_actor : EndstonePlayer
deriving DecidableEq, Repr

/-- The part of a bedrock `ChatEvent` the detour reads and writes. -/
structure ChatEvent where
  message : String
deriving DecidableEq, Repr

/-- What a run of the `_displayGameMessage` detour does that can be seen from
outside, in order. -/
inductive ChatEffect where
  | callEvent (e : PlayerChatEvent)
  | log_info (player_name message : String)
  | original (player : Player) (event : ChatEvent)
deriving DecidableEq, Repr

/-- The detour `ServerNetworkHandler::_displayGameMessage`, lines 100-114: the
caller's `ChatEvent` afterwards and the effects. -/
def _displayGameMessage (observers : PlayerChatEvent → PlayerChatEvent)
    (player : Player) (event : ChatEvent) : ChatEvent × List ChatEffect :=
  let e0 : PlayerChatEvent := { player := player.endstone_actor, message := event.message, cancelled := false }
  let e := observers e0
  if e.cancelled then (event, [.callEvent e0])
  else
    let event : ChatEvent := { event with message := e.message }
    (event, [.callEvent e0, .log_info e.player.name e.message, .original player event])

/-- The calls of the original among the effects of `disconnectClient`. -/
def disconnect_originals : List DisconnectEffect → List DisconnectArgs
  | [] => []
  | .original args :: rest => args :: disconnect_originals rest
  | .callEvent _ :: rest => disconnect_originals rest

/-- The calls of the original among the effects of `_displayGameMessage`. -/
def chat_originals : List ChatEffect → List (Player × ChatEvent)
  | [] => []
  | .original player event :: rest => (player, event) :: chat_originals rest
  | .callEvent _ :: rest => chat_originals rest
  | .log_info _ _ :: rest => chat_originals rest

end ServerNetworkHandler

/-! ## Fixtures for the concrete runs -/

namespace endstone.hook

/-- Fixture: a symbol table with two originals and one detour. -/
def fixture_internals : internals :=
  { originals := [("?add@@YAHHH@Z", 4096), ("Widget::getValue", 8192)],
    detours := [("?add@@YAHHH@Z", 12288)] }

/-- Fixture: an `UnDecorateSymbolName` that strips the decoration of
`?foo@@YAXXZ`, fails with error 87 on the empty name and gives back any other
name as it is. -/
def fixture_undecorate (name : String) : Except Nat String :=
  if name = "?foo@@YAXXZ" then .ok "foo"
  else if name = "" then .error 87
  else .ok name

/-- Fixture: a patch engine that accepts every request and answers the
trampoline address `target + detour + 1`. -/
def fixture_engine : Engine :=
  { status := fun _ _ => .MH_OK,
    original := fun _ target detour => target + detour + 1 }

/-- Fixture: a patch engine like `fixture_engine` that refuses, with failure
code 8, the `MH_CreateHook` it receives as its third request. -/
def fixture_refusing_engine : Engine :=
  { status := fun hist req =>
      match req with
      | .MH_CreateHook _ _ => if hist.length = 2 then .OtherFailure 8 else .MH_OK
      | _ => .MH_OK,
    original := fun _ target detour => target + detour + 1 }

/-- Fixture: a framework module with detours for `?add@@YAHHH@Z` and
`?getValue@Widget@@QEBAHXZ`, and a target module with these two symbols and a
third one; tables are visited in entry order. -/
def fixture_env (eng : Engine) : Env :=
  { framework_base := 0x70000000,
    framework_sym_base := 0x1000,
    framework_symbols := [⟨"?add@@YAHHH@Z", 0x1100⟩, ⟨"?getValue@Widget@@QEBAHXZ", 0x1200⟩],
    target_base := 0x40000000,
    target_sym_base := 0x2000,
    target_symbols := [⟨"?add@@YAHHH@Z", 0x2100⟩, ⟨"?getValue@Widget@@QEBAHXZ", 0x2200⟩,
      ⟨"?foo@@YAXXZ", 0x2300⟩],
    UnDecorateSymbolName := fixture_undecorate,
    iteration := fun t => t,
    engine := eng }

/-- Fixture: a target module with a symbol whose name `UnDecorateSymbolName`
fails on. -/
def fixture_failing_env : Env :=
  { framework_base := 0x70000000,
    framework_sym_base := 0x1000,
    framework_symbols := [⟨"?add@@YAHHH@Z", 0x1100⟩],
    target_base := 0x40000000,
    target_sym_base := 0x2000,
    target_symbols := [⟨"?add@@YAHHH@Z", 0x2100⟩, ⟨"", 0x2200⟩],
    UnDecorateSymbolName := fixture_undecorate,
    iteration := fun t => t,
    engine := fixture_engine }

end endstone.hook

namespace ServerNetworkHandler

/-- Fixture: a server that knows one player, on connection 1, sub-client 0. -/
def fixture_getPlayer (network_id sub_client_id : Nat) : Option EndstonePlayer :=
  if network_id = 1 ∧ sub_client_id = 0 then some { name := "Steve" } else none

/-- Fixture: observers that replace the kick reason and do not cancel. -/
def fixture_kick_observers (e : PlayerKickEvent) : PlayerKickEvent :=
  { e with reason := "banned" }

/-- Fixture: observers that cancel every chat event. -/
def fixture_chat_observers (e : PlayerChatEvent) : PlayerChatEvent :=
  { e with cancelled := true }

/-- Fixture: a disconnect of the known player. -/
def fixture_disconnect : DisconnectArgs :=
  { network_id := 1, sub_client_id := 0, reason := 3, message := "disconnect.kicked",
    filtered_message := none, skip_message := false }

end ServerNetworkHandler

/-! ## Symbol lookup -/

namespace endstone.hook

/-- C1: `sym_from_name` returns exactly the address stored under the name in
the originals table when the name is present, throws the symbol-not-found
error exactly when the name is absent (and throws nothing else), gives the
same answer whatever the detours table holds, and leaves both tables as they
were. -/
theorem sym_from_name_contract (s : internals) (name : String) :
    (∀ a, s.originals.find name = some a → (sym_from_name s name).1 = .ok a) ∧
    ((∃ e, (sym_from_name s name).1 = .error e) ↔ s.originals.find name = none) ∧
    (∀ e, (sym_from_name s name).1 = .error e → e = .symbol_not_found name) ∧
    (∀ d, (sym_from_name { s with detours := d } name).1 = (sym_from_name s name).1) ∧
    (sym_from_name s name).2 = s := by
  unfold sym_from_name
  cases h : s.originals.find name with
  | none => simp [h]
  | some a => simp [h]

/-- The witness of `sym_from_name_contract` on the fixture table. -/
theorem sym_from_name_contract_witness :
    fixture_internals.originals.find "Widget::getValue" = some 8192 ∧
    (sym_from_name fixture_internals "Widget::getValue").1 = .ok 8192 :=
  ⟨by decide,
   (sym_from_name_contract fixture_internals "Widget::getValue").1 8192 (by decide)⟩

end endstone.hook

/-! ## Moving and destroying the handle -/

namespace endstone.hook

/-- C5: what the move constructor does with an installed handle `A`. The new
handle `B` is not installed, `A` is not installed any more, and destroying
either of them sends nothing to the patch engine: the teardown obligation is
dropped, not transferred. -/
theorem manager_move_drops_obligation (h_library : Addr) (log : List Request) :
    (manager_move { initialized_ := true, h_library_ := h_library }).1.initialized_ = false ∧
    (manager_move { initialized_ := true, h_library_ := h_library }).2.initialized_ = false ∧
    (manager_dtor (manager_move { initialized_ := true, h_library_ := h_library }).1 log).2 = log ∧
    (manager_dtor (manager_move { initialized_ := true, h_library_ := h_library }).2 log).2 = log := by
  simp [manager_move, manager_dtor]

end endstone.hook

/-! ## The cancellable detours -/

namespace ServerNetworkHandler

/-- C10, as stated, fails: when the server finds no player for the connection,
`disconnectClient` returns without calling the original although no observer
cancelled anything (the observers here change nothing and no event reaches
them). -/
theorem disconnect_without_player_counterexample :
    disconnectClient (fun _ _ => none) (fun m => m) (fun e => e)
      { network_id := 1, sub_client_id := 0, reason := 0, message := "bye",
        filtered_message := none, skip_message := false } = [] ∧
    (disconnect_originals (disconnectClient (fun _ _ => none) (fun m => m) (fun e => e)
      { network_id := 1, sub_client_id := 0, reason := 0, message := "bye",
        filtered_message := none, skip_message := false })).length ≠ 1 := by
  decide

/-- C10, amended: `disconnectClient` emits no event and does not call the
original when the server finds no player. When it finds one it hands the
observers a `PlayerKickEvent` with the translated message; if they cancel it
the original is not called, otherwise the original is called exactly once, with
the event's reason as message when that differs from the translated message
and with the caller's message otherwise, the other arguments unchanged.
`_displayGameMessage` hands the observers a `PlayerChatEvent`; if they cancel
it the original is not called and the caller's event is untouched, otherwise
the original is called exactly once, with the same player and with the event
carrying the observers' message. -/
theorem cancellable_detours :
    (∀ (getPlayer : Nat → Nat → Option EndstonePlayer) (i18n_get : String → String)
        (observers : PlayerKickEvent → PlayerKickEvent) (a : DisconnectArgs),
      (getPlayer a.network_id a.sub_client_id = none →
        disconnectClient getPlayer i18n_get observers a = []) ∧
      (∀ p, getPlayer a.network_id a.sub_client_id = some p →
        ((observers { player := p, reason := i18n_get a.message, cancelled := false }).cancelled = true →
          disconnectClient getPlayer i18n_get observers a
            = [.callEvent { player := p, reason := i18n_get a.message, cancelled := false }] ∧
          disconnect_originals (disconnectClient getPlayer i18n_get observers a) = []) ∧
        ((observers { player := p, reason := i18n_get a.message, cancelled := false }).cancelled = false →
          disconnect_originals (disconnectClient getPlayer i18n_get observers a)
            = [{ a with message :=
                  if (observers { player := p, reason := i18n_get a.message, cancelled := false }).reason
                      ≠ i18n_get a.message
                  then (observers { player := p, reason := i18n_get a.message, cancelled := false }).reason
                  else a.message }]))) ∧
    (∀ (observers : PlayerChatEvent → PlayerChatEvent) (player : Player) (event : ChatEvent),
      ((observers { player := player.endstone_actor, message := event.message, cancelled := false }).cancelled = true →
        (_displayGameMessage observers player event).1 = event ∧
        chat_originals (_displayGameMessage observers player event).2 = []) ∧
      ((observers { player := player.endstone_actor, message := event.message, cancelled := false }).cancelled = false →
        chat_originals (_displayGameMessage observers player event).2
          = [(player, { event with message :=
                (observers { player := player.endstone_actor, message := event.message,
                             cancelled := false }).message })])) := by
  refine ⟨?_, ?_⟩
  · intro getPlayer i18n_get observers a
    refine ⟨?_, ?_⟩
    · intro h
      simp [disconnectClient, h]
    · intro p h
      refine ⟨?_, ?_⟩
      · intro hc
        simp [disconnectClient, h, hc, disconnect_originals]
      · intro hc
        simp [disconnectClient, h, hc, disconnect_originals]
  · intro observers player event
    refine ⟨?_, ?_⟩
    · intro hc
      simp [_displayGameMessage, hc, chat_originals]
    · intro hc
      simp [_displayGameMessage, hc, chat_originals]

/-- The witness of `cancellable_detours`: a kick whose reason the observers
replace reaches the original once, with the new reason; a chat message the
observers cancel does not reach the original. -/
theorem cancellable_detours_witness :
    disconnect_originals
        (disconnectClient fixture_getPlayer (fun m => m) fixture_kick_observers fixture_disconnect)
      = [{ fixture_disconnect with message := "banned" }] ∧
    chat_originals
        (_displayGameMessage fixture_chat_observers { endstone_actor := { name := "Steve" } }
          { message := "hello" }).2 = [] :=
  ⟨((cancellable_detours.1 fixture_getPlayer (fun m => m) fixture_kick_observers
        fixture_disconnect).2 { name := "Steve" } (by decide)).2 (by decide),
   ((cancellable_detours.2 fixture_chat_observers { endstone_actor := { name := "Steve" } }
        { message := "hello" }).1 (by decide)).2⟩

end ServerNetworkHandler

/-! ## Building the symbol index -/

namespace endstone.hook

theorem Table.find_append (t u : Table) (name : String) :
    Table.find (t ++ u) name = (Table.find t name).orElse (fun _ => Table.find u name) := by
  induction t with
  | nil => simp [Table.find]
  | cons e rest ih =>
    obtain ⟨k, v⟩ := e
    by_cases hk : k = name
    · simp [Table.find, hk]
    · simp [Table.find, hk, ih]

theorem Table.find_insert_of_some (t : Table) (k name : String) (a v : Addr)
    (h : Table.find t name = some v) : Table.find (Table.insert t k a) name = some v := by
  unfold Table.insert
  cases hk : Table.find t k with
  | some w => simpa using h
  | none => simp [Table.find_append, h]

theorem Table.find_insert_self (t : Table) (name : String) (a : Addr)
    (h : Table.find t name = none) : Table.find (Table.insert t name a) name = some a := by
  unfold Table.insert
  simp [h, Table.find_append, Table.find]

theorem Table.find_insert_ne (t : Table) (k name : String) (a : Addr) (hk : k ≠ name) :
    Table.find (Table.insert t k a) name = Table.find t name := by
  unfold Table.insert
  cases hf : Table.find t k with
  | some w => rfl
  | none =>
    simp only [Table.find_append, Table.find, hk, if_false]
    cases Table.find t name <;> rfl

theorem enum_detours_originals (mb smb : Nat) (syms : List SYMBOL_INFO) (s : internals) :
    (enum_detours mb smb syms s).originals = s.originals := by
  induction syms generalizing s with
  | nil => rfl
  | cons info rest ih => simp [enum_detours, ih]

theorem enum_detours_keeps (mb smb : Nat) (syms : List SYMBOL_INFO) (s : internals)
    (name : String) (v : Addr) (h : s.detours.find name = some v) :
    (enum_detours mb smb syms s).detours.find name = some v := by
  induction syms generalizing s with
  | nil => simpa [enum_detours] using h
  | cons info rest ih =>
    simp only [enum_detours]
    exact ih _ (Table.find_insert_of_some _ _ _ _ _ h)

theorem enum_detours_first (mb smb : Nat) (pre : List SYMBOL_INFO) (info : SYMBOL_INFO)
    (post : List SYMBOL_INFO) (s : internals) (hnew : s.detours.find info.Name = none)
    (hpre : ∀ i ∈ pre, i.Name ≠ info.Name) :
    (enum_detours mb smb (pre ++ info :: post) s).detours.find info.Name
      = some (rebase mb smb info.Address) := by
  induction pre generalizing s with
  | nil =>
    simp only [List.nil_append, enum_detours]
    exact enum_detours_keeps _ _ _ _ _ _ (Table.find_insert_self _ _ _ hnew)
  | cons i rest ih =>
    simp only [List.cons_append, enum_detours]
    apply ih
    · simp only
      rw [Table.find_insert_ne _ _ _ _ (hpre i (List.mem_cons_self _ _))]
      exact hnew
    · intro j hj
      exact hpre j (List.mem_cons_of_mem _ hj)

theorem enum_originals_detours (undec : String → Except Nat String) (mb smb : Nat)
    (syms : List SYMBOL_INFO) (s : internals) :
    (enum_originals undec mb smb syms s).2.detours = s.detours := by
  induction syms generalizing s with
  | nil => rfl
  | cons info rest ih =>
    simp only [enum_originals]
    cases hk : original_key undec s info.Name with
    | error e => rfl
    | ok key => simp [ih]

theorem original_key_congr (undec : String → Except Nat String) (s s1 : internals)
    (h : s1.detours = s.detours) (name : String) :
    original_key undec s1 name = original_key undec s name := by
  simp [original_key, h]

theorem enum_originals_keeps (undec : String → Except Nat String) (mb smb : Nat)
    (syms : List SYMBOL_INFO) (s : internals) (name : String) (v : Addr)
    (h : s.originals.find name = some v) :
    (enum_originals undec mb smb syms s).2.originals.find name = some v := by
  induction syms generalizing s with
  | nil => simpa [enum_originals] using h
  | cons info rest ih =>
    simp only [enum_originals]
    cases hk : original_key undec s info.Name with
    | error e => simpa using h
    | ok key => exact ih _ (Table.find_insert_of_some _ _ _ _ _ h)

theorem enum_originals_first (undec : String → Except Nat String) (mb smb : Nat)
    (pre : List SYMBOL_INFO) (info : SYMBOL_INFO) (post : List SYMBOL_INFO)
    (s s1 : internals) (key : String)
    (hrun : enum_originals undec mb smb (pre ++ info :: post) s = (.ok (), s1))
    (hkey : original_key undec s info.Name = .ok key)
    (hnew : s.originals.find key = none)
    (hpre : ∀ i ∈ pre, original_key undec s i.Name ≠ .ok key) :
    s1.originals.find key = some (rebase mb smb info.Address) := by
  induction pre generalizing s with
  | nil =>
    simp only [List.nil_append, enum_originals, hkey] at hrun
    have := enum_originals_keeps undec mb smb post
      { s with originals := s.originals.insert key (rebase mb smb info.Address) } key _
      (Table.find_insert_self _ _ _ hnew)
    rw [hrun] at this
    exact this
  | cons i rest ih =>
    simp only [List.cons_append, enum_originals] at hrun
    cases hk : original_key undec s i.Name with
    | error e => simp [hk] at hrun
    | ok k =>
      simp only [hk] at hrun
      have hne : k ≠ key := by
        intro hkk
        exact hpre i (List.mem_cons_self _ _) (by rw [hk, hkk])
      apply ih _ hrun
      · exact (original_key_congr undec s _ rfl _).trans hkey
      · simp only
        rw [Table.find_insert_ne _ _ _ _ hne]
        exact hnew
      · intro j hj
        intro hc
        exact hpre j (List.mem_cons_of_mem _ hj) ((original_key_congr undec s _ rfl _).symm.trans hc)

end endstone.hook

namespace endstone.hook

/-- C4, as stated, fails: when two symbols of one module map to the same key,
the table keeps the address of the one enumerated first, in the detours table
and in the originals table alike; the address of the one enumerated last is
not stored. -/
theorem last_write_wins_counterexample :
    (enum_detours 0 0 [⟨"f", 16⟩, ⟨"f", 32⟩] ⟨[], []⟩).detours.find "f" = some (rebase 0 0 16) ∧
    (enum_detours 0 0 [⟨"f", 16⟩, ⟨"f", 32⟩] ⟨[], []⟩).detours.find "f" ≠ some (rebase 0 0 32) ∧
    (enum_originals fixture_undecorate 0 0 [⟨"?foo@@YAXXZ", 16⟩, ⟨"foo", 32⟩] ⟨[], []⟩).2.originals.find
        "foo" = some (rebase 0 0 16) ∧
    (enum_originals fixture_undecorate 0 0 [⟨"?foo@@YAXXZ", 16⟩, ⟨"foo", 32⟩] ⟨[], []⟩).2.originals.find
        "foo" ≠ some (rebase 0 0 32) := by
  decide

/-- C4, amended: duplicates are resolved by first-write-wins. In the framework
module's enumeration, the detours table ends up holding, under a name it did
not hold before, the address of the first symbol enumerated with that name. In
the target module's enumeration, the originals table ends up holding, under a
key it did not hold before, the address of the first symbol enumerated whose
key (its name when that is a detour name, its undecorated name otherwise) is
that key. -/
theorem first_write_wins :
    (∀ (mb smb : Nat) (pre : List SYMBOL_INFO) (info : SYMBOL_INFO) (post : List SYMBOL_INFO)
        (s : internals),
      s.detours.find info.Name = none →
      (∀ i ∈ pre, i.Name ≠ info.Name) →
      (enum_detours mb smb (pre ++ info :: post) s).detours.find info.Name
        = some (rebase mb smb info.Address)) ∧
    (∀ (undec : String → Except Nat String) (mb smb : Nat) (pre : List SYMBOL_INFO)
        (info : SYMBOL_INFO) (post : List SYMBOL_INFO) (s s1 : internals) (key : String),
      enum_originals undec mb smb (pre ++ info :: post) s = (.ok (), s1) →
      original_key undec s info.Name = .ok key →
      s.originals.find key = none →
      (∀ i ∈ pre, original_key undec s i.Name ≠ .ok key) →
      s1.originals.find key = some (rebase mb smb info.Address)) :=
  ⟨fun mb smb pre info post s hnew hpre => enum_detours_first mb smb pre info post s hnew hpre,
   fun undec mb smb pre info post s s1 key hrun hkey hnew hpre =>
     enum_originals_first undec mb smb pre info post s s1 key hrun hkey hnew hpre⟩

/-- The witness of `first_write_wins`: two symbols named `f`, and a decorated
and a plain symbol that both get the key `foo`. -/
theorem first_write_wins_witness :
    (enum_detours 0 0 ([] ++ (⟨"f", 16⟩ : SYMBOL_INFO) :: [⟨"f", 32⟩]) ⟨[], []⟩).detours.find "f"
      = some (rebase 0 0 16) ∧
    (enum_originals fixture_undecorate 0 0
        ([] ++ (⟨"?foo@@YAXXZ", 16⟩ : SYMBOL_INFO) :: [⟨"foo", 32⟩]) ⟨[], []⟩).2.originals.find "foo"
      = some (rebase 0 0 16) :=
  ⟨first_write_wins.1 0 0 [] ⟨"f", 16⟩ [⟨"f", 32⟩] ⟨[], []⟩ (by decide) (by simp),
   first_write_wins.2 fixture_undecorate 0 0 [] ⟨"?foo@@YAXXZ", 16⟩ [⟨"foo", 32⟩] ⟨[], []⟩
     (enum_originals fixture_undecorate 0 0
        ([] ++ (⟨"?foo@@YAXXZ", 16⟩ : SYMBOL_INFO) :: [⟨"foo", 32⟩]) ⟨[], []⟩).2 "foo"
     rfl rfl (by decide) (by simp)⟩

end endstone.hook

/-! ## The installation loop -/

namespace endstone.hook

theorem Table.find_assign_self (t : Table) (name : String) (a : Addr) :
    Table.find (Table.assign t name a) name = some a := by
  induction t with
  | nil => simp [Table.assign, Table.find]
  | cons e rest ih =>
    obtain ⟨k, v⟩ := e
    by_cases hk : k = name
    · simp [Table.assign, Table.find, hk]
    · simp [Table.assign, Table.find, hk, ih]

theorem Table.find_assign_ne (t : Table) (name n : String) (a : Addr) (hne : name ≠ n) :
    Table.find (Table.assign t name a) n = Table.find t n := by
  induction t with
  | nil => simp [Table.assign, Table.find, hne]
  | cons e rest ih =>
    obtain ⟨k, v⟩ := e
    by_cases hk : k = name
    · subst hk
      simp [Table.assign, Table.find, hne]
    · by_cases hkn : k = n
      · subst hkn
        simp [Table.assign, Table.find, hk]
      · simp [Table.assign, Table.find, hk, hkn, ih]

theorem install_loop_cons_none (eng : Engine) (name : String) (detour : Addr)
    (rest : List (String × Addr)) (s : internals) (log : List Request)
    (h : s.originals.find name = none) :
    install_loop eng ((name, detour) :: rest) s log
      = (.error (.symbol_not_found name), s, log) := by
  simp [install_loop, sym_from_name, h]

theorem install_loop_cons_refused (eng : Engine) (name : String) (detour target : Addr)
    (rest : List (String × Addr)) (s : internals) (log : List Request)
    (h : s.originals.find name = some target)
    (hst : eng.status log (.MH_CreateHook target detour) ≠ .MH_OK) :
    install_loop eng ((name, detour) :: rest) s log
      = (.error (.minhook (eng.status log (.MH_CreateHook target detour))), s,
          log ++ [.MH_CreateHook target detour]) := by
  simp [install_loop, sym_from_name, h, hst]

theorem install_loop_cons_ok (eng : Engine) (name : String) (detour target : Addr)
    (rest : List (String × Addr)) (s : internals) (log : List Request)
    (h : s.originals.find name = some target)
    (hst : eng.status log (.MH_CreateHook target detour) = .MH_OK) :
    install_loop eng ((name, detour) :: rest) s log
      = install_loop eng rest
          { s with originals := s.originals.assign name (eng.original log target detour) }
          (log ++ [.MH_CreateHook target detour]) := by
  simp [install_loop, sym_from_name, h, hst]

/-- The loop over a list that starts with `pre` continues, once `pre` is
done, from the state and log the loop over `pre` left. -/
theorem install_loop_append (eng : Engine) (pre rest : List (String × Addr))
    (s s2 : internals) (log log2 : List Request)
    (h : install_loop eng pre s log = (.ok (), s2, log2)) :
    install_loop eng (pre ++ rest) s log = install_loop eng rest s2 log2 := by
  induction pre generalizing s log with
  | nil =>
    simp only [install_loop, Prod.mk.injEq, true_and] at h
    obtain ⟨rfl, rfl⟩ := h
    rfl
  | cons e pre ih =>
    obtain ⟨name, detour⟩ := e
    cases hf : s.originals.find name with
    | none =>
      rw [install_loop_cons_none eng name detour pre s log hf] at h
      simp at h
    | some target =>
      by_cases hst : eng.status log (.MH_CreateHook target detour) = .MH_OK
      · rw [install_loop_cons_ok eng name detour target pre s log hf hst] at h
        rw [List.cons_append, install_loop_cons_ok eng name detour target _ s log hf hst]
        exact ih _ _ h
      · rw [install_loop_cons_refused eng name detour target pre s log hf hst] at h
        simp at h

/-- The loop never touches the detours table. -/
theorem install_loop_detours (eng : Engine) (l : List (String × Addr)) (s : internals)
    (log : List Request) : (install_loop eng l s log).2.1.detours = s.detours := by
  induction l generalizing s log with
  | nil => rfl
  | cons e rest ih =>
    obtain ⟨name, detour⟩ := e
    cases hf : s.originals.find name with
    | none => rw [install_loop_cons_none eng name detour rest s log hf]
    | some target =>
      by_cases hst : eng.status log (.MH_CreateHook target detour) = .MH_OK
      · rw [install_loop_cons_ok eng name detour target rest s log hf hst, ih]
      · rw [install_loop_cons_refused eng name detour target rest s log hf hst]

/-- The loop leaves alone what the originals table holds under a name that is
not among the entries it visits. -/
theorem install_loop_find_other (eng : Engine) (l : List (String × Addr)) (s : internals)
    (log : List Request) (n : String) (hn : n ∉ l.map Prod.fst) :
    (install_loop eng l s log).2.1.originals.find n = s.originals.find n := by
  induction l generalizing s log with
  | nil => rfl
  | cons e rest ih =>
    obtain ⟨name, detour⟩ := e
    have hne : name ≠ n := by
      intro h
      exact hn (by simp [h])
    have hrest : n ∉ rest.map Prod.fst := by
      intro h
      exact hn (by simp only [List.map_cons, List.mem_cons]; exact Or.inr h)
    cases hf : s.originals.find name with
    | none => rw [install_loop_cons_none eng name detour rest s log hf]
    | some target =>
      by_cases hst : eng.status log (.MH_CreateHook target detour) = .MH_OK
      · rw [install_loop_cons_ok eng name detour target rest s log hf hst, ih _ _ hrest]
        exact Table.find_assign_ne _ _ _ _ hne
      · rw [install_loop_cons_refused eng name detour target rest s log hf hst]

/-- The loop only appends to the request log. -/
theorem install_loop_log_prefix (eng : Engine) (l : List (String × Addr)) (s : internals)
    (log : List Request) : log <+: (install_loop eng l s log).2.2 := by
  induction l generalizing s log with
  | nil => exact List.prefix_refl _
  | cons e rest ih =>
    obtain ⟨name, detour⟩ := e
    cases hf : s.originals.find name with
    | none =>
      rw [install_loop_cons_none eng name detour rest s log hf]
    | some target =>
      by_cases hst : eng.status log (.MH_CreateHook target detour) = .MH_OK
      · rw [install_loop_cons_ok eng name detour target rest s log hf hst]
        exact (List.prefix_append _ _).trans (ih _ _)
      · rw [install_loop_cons_refused eng name detour target rest s log hf hst]
        exact List.prefix_append _ _

end endstone.hook

namespace endstone.hook

/-- After a loop that went through, every visited entry has its record: the
address the name resolved to before the loop was the target of one accepted
`MH_CreateHook` request in the log, and the originals table now holds, under
the name, the trampoline the engine answered to that request. -/
theorem install_loop_records (eng : Engine) (l : List (String × Addr)) (s s2 : internals)
    (log log2 : List Request) (h : install_loop eng l s log = (.ok (), s2, log2))
    (hnd : (l.map Prod.fst).Nodup) (name : String) (detour : Addr) (hmem : (name, detour) ∈ l) :
    ∃ hist target, s.originals.find name = some target ∧ log <+: hist ∧
      (hist ++ [.MH_CreateHook target detour]) <+: log2 ∧
      eng.status hist (.MH_CreateHook target detour) = .MH_OK ∧
      s2.originals.find name = some (eng.original hist target detour) := by
  induction l generalizing s log with
  | nil => simp at hmem
  | cons e rest ih =>
    obtain ⟨n0, d0⟩ := e
    simp only [List.map_cons, List.nodup_cons] at hnd
    obtain ⟨hn0, hndrest⟩ := hnd
    cases hf : s.originals.find n0 with
    | none =>
      rw [install_loop_cons_none eng n0 d0 rest s log hf] at h
      simp at h
    | some target =>
      by_cases hst : eng.status log (.MH_CreateHook target d0) = .MH_OK
      · rw [install_loop_cons_ok eng n0 d0 target rest s log hf hst] at h
        rcases List.mem_cons.mp hmem with heq | hrest
        · obtain ⟨rfl, rfl⟩ := Prod.mk.inj heq
          refine ⟨log, target, hf, List.prefix_refl _, ?_, hst, ?_⟩
          · have := install_loop_log_prefix eng rest
              { s with originals := s.originals.assign name (eng.original log target detour) }
              (log ++ [.MH_CreateHook target detour])
            rw [h] at this
            exact this
          · have := install_loop_find_other eng rest
              { s with originals := s.originals.assign name (eng.original log target detour) }
              (log ++ [.MH_CreateHook target detour]) name hn0
            rw [h] at this
            rw [this]
            exact Table.find_assign_self _ _ _
        · obtain ⟨hist, t, hfind, hpre, hlog, hok, hfin⟩ := ih _ _ h hndrest hrest
          have hne : n0 ≠ name := by
            intro heq
            apply hn0
            rw [heq]
            exact List.mem_map_of_mem Prod.fst hrest
          refine ⟨hist, t, ?_, (List.prefix_append _ _).trans hpre, hlog, hok, hfin⟩
          rw [← hfind]
          exact (Table.find_assign_ne _ _ _ _ hne).symm
      · rw [install_loop_cons_refused eng n0 d0 target rest s log hf hst] at h
        simp at h

/-- The requests the loop adds to the log are `MH_CreateHook` requests, at most
one per visited entry; when the loop goes through there is exactly one per
entry, for that entry's detour, in visiting order, and the engine accepted
each of them. -/
theorem install_loop_log_shape (eng : Engine) (l : List (String × Addr)) (s : internals)
    (log : List Request) :
    ∃ creates : List (Addr × Addr),
      (install_loop eng l s log).2.2 = log ++ creates.map create_request ∧
      creates.length ≤ l.length ∧
      ((install_loop eng l s log).1 = .ok () →
        creates.map Prod.snd = l.map Prod.snd ∧
        ∀ pre c post, creates = pre ++ c :: post →
          eng.status (log ++ pre.map create_request) (create_request c) = .MH_OK) := by
  induction l generalizing s log with
  | nil => exact ⟨[], by simp [install_loop], by simp, fun _ => ⟨rfl, by simp⟩⟩
  | cons e rest ih =>
    obtain ⟨n0, d0⟩ := e
    cases hf : s.originals.find n0 with
    | none =>
      rw [install_loop_cons_none eng n0 d0 rest s log hf]
      exact ⟨[], by simp, by simp, by simp⟩
    | some target =>
      by_cases hst : eng.status log (.MH_CreateHook target d0) = .MH_OK
      · rw [install_loop_cons_ok eng n0 d0 target rest s log hf hst]
        obtain ⟨creates, hlog, hlen, hok⟩ :=
          ih { s with originals := s.originals.assign n0 (eng.original log target d0) }
            (log ++ [.MH_CreateHook target d0])
        refine ⟨(target, d0) :: creates, ?_, ?_, ?_⟩
        · rw [hlog]
          simp [create_request]
        · simpa using hlen
        · intro hout
          obtain ⟨hmap, hall⟩ := hok hout
          refine ⟨by simp [hmap], ?_⟩
          intro pre c post hsplit
          cases pre with
          | nil =>
            simp only [List.nil_append, List.cons.injEq] at hsplit
            rw [← hsplit.1]
            simpa [create_request] using hst
          | cons p pre2 =>
            simp only [List.cons_append, List.cons.injEq] at hsplit
            have := hall pre2 c post hsplit.2
            rw [← hsplit.1]
            simpa [create_request] using this
      · rw [install_loop_cons_refused eng n0 d0 target rest s log hf hst]
        exact ⟨[(target, d0)], by simp [create_request], by simp, by simp⟩

end endstone.hook

/-! ## The constructor -/

namespace endstone.hook

theorem Table.mem_of_find (t : Table) (name : String) (v : Addr)
    (h : Table.find t name = some v) : (name, v) ∈ t := by
  induction t with
  | nil => simp [Table.find] at h
  | cons e rest ih =>
    obtain ⟨k, w⟩ := e
    by_cases hk : k = name
    · simp only [Table.find, hk, if_true, Option.some.injEq] at h
      simp [hk, h]
    · simp only [Table.find, hk, if_false] at h
      exact List.mem_cons_of_mem _ (ih h)

theorem Table.find_none_iff (t : Table) (name : String) :
    Table.find t name = none ↔ name ∉ Table.keys t := by
  induction t with
  | nil => simp [Table.find, Table.keys]
  | cons e rest ih =>
    obtain ⟨k, w⟩ := e
    by_cases hk : k = name
    · simp [Table.find, Table.keys, hk]
    · simp only [Table.find, hk, if_false, ih, Table.keys, List.map_cons, List.mem_cons, not_or]
      constructor
      · intro h
        exact ⟨fun hc => hk hc.symm, h⟩
      · intro h
        exact h.2

theorem Table.insert_keys_nodup (t : Table) (name : String) (a : Addr)
    (h : (Table.keys t).Nodup) : (Table.keys (Table.insert t name a)).Nodup := by
  unfold Table.insert
  cases hf : Table.find t name with
  | some w => exact h
  | none =>
    have hnot := (Table.find_none_iff t name).mp hf
    simp only [Table.keys, List.map_append, List.map_cons, List.map_nil]
    rw [List.nodup_append]
    refine ⟨h, by simp, ?_⟩
    intro x hx hx2
    simp only [List.mem_singleton] at hx2
    subst hx2
    exact hnot hx

theorem Table.find_insert_some (t : Table) (name : String) (a : Addr) :
    ∃ v, Table.find (Table.insert t name a) name = some v := by
  cases hf : Table.find t name with
  | some w => exact ⟨w, Table.find_insert_of_some t name name a w hf⟩
  | none => exact ⟨a, Table.find_insert_self t name a hf⟩

theorem enum_detours_nodup (mb smb : Nat) (syms : List SYMBOL_INFO) (s : internals)
    (h : (Table.keys s.detours).Nodup) :
    (Table.keys (enum_detours mb smb syms s).detours).Nodup := by
  induction syms generalizing s with
  | nil => exact h
  | cons info rest ih =>
    simp only [enum_detours]
    exact ih _ (Table.insert_keys_nodup _ _ _ h)

theorem enum_detours_has (mb smb : Nat) (syms : List SYMBOL_INFO) (s : internals)
    (name : String) (h : name ∈ syms.map SYMBOL_INFO.Name) :
    ∃ d, (enum_detours mb smb syms s).detours.find name = some d := by
  induction syms generalizing s with
  | nil => simp at h
  | cons info rest ih =>
    simp only [enum_detours]
    by_cases hn : info.Name = name
    · obtain ⟨v, hv⟩ := Table.find_insert_some s.detours info.Name (rebase mb smb info.Address)
      rw [hn] at hv
      refine ⟨v, enum_detours_keeps mb smb rest _ name v ?_⟩
      rw [← hn]
      rw [← hn] at hv
      exact hv
    · apply ih
      simp only [List.map_cons, List.mem_cons] at h
      rcases h with heq | hr
      · exact absurd heq.symm hn
      · exact hr

theorem build_index_detours (env : Env) (s : internals) :
    (build_index env s).2.detours
      = (enum_detours env.framework_base env.framework_sym_base env.framework_symbols s).detours := by
  unfold build_index
  exact enum_originals_detours _ _ _ _ _

theorem manager_ctor_index_error (env : Env) (hl : Addr) (s s1 : internals) (log : List Request)
    (e : HookError) (h : build_index env s = (.error e, s1)) :
    manager_ctor env hl s log
      = { outcome := .error e, self := { initialized_ := false, h_library_ := hl },
          internals := s1, log := log } := by
  simp [manager_ctor, h]

theorem manager_ctor_init_refused (env : Env) (hl : Addr) (s s1 : internals) (log : List Request)
    (h : build_index env s = (.ok (), s1))
    (hst : env.engine.status log .MH_Initialize ≠ .MH_OK) :
    manager_ctor env hl s log
      = { outcome := .error (.minhook (env.engine.status log .MH_Initialize)),
          self := { initialized_ := false, h_library_ := hl },
          internals := s1, log := log ++ [ .MH_Initialize] } := by
  simp [manager_ctor, h, hst]

theorem manager_ctor_loop_error (env : Env) (hl : Addr) (s s1 s2 : internals)
    (log log2 : List Request) (e : HookError)
    (h : build_index env s = (.ok (), s1))
    (hst : env.engine.status log .MH_Initialize = .MH_OK)
    (hloop : install_loop env.engine (env.iteration s1.detours) s1 (log ++ [ .MH_Initialize])
      = (.error e, s2, log2)) :
    manager_ctor env hl s log
      = { outcome := .error e, self := { initialized_ := false, h_library_ := hl },
          internals := s2, log := log2 } := by
  simp [manager_ctor, h, hst, hloop]

theorem manager_ctor_enable_refused (env : Env) (hl : Addr) (s s1 s2 : internals)
    (log log2 : List Request)
    (h : build_index env s = (.ok (), s1))
    (hst : env.engine.status log .MH_Initialize = .MH_OK)
    (hloop : install_loop env.engine (env.iteration s1.detours) s1 (log ++ [ .MH_Initialize])
      = (.ok (), s2, log2))
    (hen : env.engine.status log2 .MH_EnableHook_ALL ≠ .MH_OK) :
    manager_ctor env hl s log
      = { outcome := .error (.minhook (env.engine.status log2 .MH_EnableHook_ALL)),
          self := { initialized_ := false, h_library_ := hl },
          internals := s2, log := log2 ++ [ .MH_EnableHook_ALL] } := by
  simp [manager_ctor, h, hst, hloop, hen]

theorem manager_ctor_installed (env : Env) (hl : Addr) (s s1 s2 : internals)
    (log log2 : List Request)
    (h : build_index env s = (.ok (), s1))
    (hst : env.engine.status log .MH_Initialize = .MH_OK)
    (hloop : install_loop env.engine (env.iteration s1.detours) s1 (log ++ [ .MH_Initialize])
      = (.ok (), s2, log2))
    (hen : env.engine.status log2 .MH_EnableHook_ALL = .MH_OK) :
    manager_ctor env hl s log
      = { outcome := .ok (), self := { initialized_ := true, h_library_ := hl },
          internals := s2, log := log2 ++ [ .MH_EnableHook_ALL] } := by
  simp [manager_ctor, h, hst, hloop, hen]

/-- A run of the constructor that returns went through every step: the index
was built, the engine accepted initialize, the loop went through and the
engine accepted enable-all. -/
theorem manager_ctor_ok_inv (env : Env) (hl : Addr) (s : internals) (log : List Request)
    (hok : (manager_ctor env hl s log).outcome = .ok ()) :
    ∃ s1 s2 log2, build_index env s = (.ok (), s1) ∧
      env.engine.status log .MH_Initialize = .MH_OK ∧
      install_loop env.engine (env.iteration s1.detours) s1 (log ++ [ .MH_Initialize])
        = (.ok (), s2, log2) ∧
      env.engine.status log2 .MH_EnableHook_ALL = .MH_OK := by
  rcases hb : build_index env s with ⟨_ | ⟨⟨⟩⟩, s1⟩
  · rw [manager_ctor_index_error env hl s s1 log _ hb] at hok
    simp at hok
  · by_cases hst : env.engine.status log .MH_Initialize = .MH_OK
    · rcases hloop : install_loop env.engine (env.iteration s1.detours) s1 (log ++ [ .MH_Initialize])
        with ⟨_ | ⟨⟨⟩⟩, s2, log2⟩
      · rw [manager_ctor_loop_error env hl s s1 s2 log log2 _ hb hst hloop] at hok
        simp at hok
      · by_cases hen : env.engine.status log2 .MH_EnableHook_ALL = .MH_OK
        · exact ⟨s1, s2, log2, rfl, hst, hloop, hen⟩
        · rw [manager_ctor_enable_refused env hl s s1 s2 log log2 hb hst hloop hen] at hok
          simp at hok
    · rw [manager_ctor_init_refused env hl s s1 log hb hst] at hok
      simp at hok

end endstone.hook

namespace endstone.hook

theorem iteration_keys_nodup (env : Env) (s : internals)
    (hiter : ∀ t, (env.iteration t).Perm t) (hnd : (Table.keys s.detours).Nodup) :
    ((env.iteration (build_index env s).2.detours).map Prod.fst).Nodup := by
  have h1 : (Table.keys (build_index env s).2.detours).Nodup := by
    rw [build_index_detours]
    exact enum_detours_nodup _ _ _ _ hnd
  exact ((hiter _).map Prod.fst).nodup_iff.mpr h1

/-- C2: after a successful installation, every symbol name of the framework
module (so every name present in both modules) resolves: `sym_from_name`
returns the trampoline address the engine answered to the accepted
`MH_CreateHook` request that redirected the name's pre-hook address to the
name's detour address. Given that the engine's trampolines are non-null and
differ from the detour, the resolved address is non-null and differs from the
matching detour address. -/
theorem resolve_after_install (env : Env) (h_library : Addr) (s : internals)
    (log : List Request)
    (hiter : ∀ t, (env.iteration t).Perm t)
    (hnodup : (Table.keys s.detours).Nodup)
    (heng : ∀ hist target detour,
      env.engine.status hist (.MH_CreateHook target detour) = .MH_OK →
      env.engine.original hist target detour ≠ 0 ∧ env.engine.original hist target detour ≠ detour)
    (hok : (manager_ctor env h_library s log).outcome = .ok ())
    (name : String) (hfw : name ∈ env.framework_symbols.map SYMBOL_INFO.Name) :
    ∃ detour a hist target,
      (manager_ctor env h_library s log).internals.detours.find name = some detour ∧
      (sym_from_name (manager_ctor env h_library s log).internals name).1 = .ok a ∧
      a ≠ 0 ∧ a ≠ detour ∧
      (build_index env s).2.originals.find name = some target ∧
      (hist ++ [ .MH_CreateHook target detour]) <+: (manager_ctor env h_library s log).log ∧
      env.engine.status hist (.MH_CreateHook target detour) = .MH_OK ∧
      a = env.engine.original hist target detour := by
  obtain ⟨s1, s2, log2, hb, hst, hloop, hen⟩ := manager_ctor_ok_inv env h_library s log hok
  rw [manager_ctor_installed env h_library s s1 s2 log log2 hb hst hloop hen]
  have hs1 : (build_index env s).2 = s1 := by rw [hb]
  obtain ⟨detour, hdet⟩ := enum_detours_has env.framework_base env.framework_sym_base
    env.framework_symbols s name hfw
  rw [← build_index_detours, hs1] at hdet
  have hmem : (name, detour) ∈ env.iteration s1.detours :=
    (hiter _).mem_iff.mpr (Table.mem_of_find _ _ _ hdet)
  have hnd := iteration_keys_nodup env s hiter hnodup
  rw [hs1] at hnd
  obtain ⟨hist, target, hfind, _, hlog, hacc, hfin⟩ :=
    install_loop_records env.engine _ s1 s2 _ log2 hloop hnd name detour hmem
  have hdet2 : s2.detours = s1.detours := by
    have := install_loop_detours env.engine (env.iteration s1.detours) s1 (log ++ [ .MH_Initialize])
    rw [hloop] at this
    exact this
  refine ⟨detour, env.engine.original hist target detour, hist, target, ?_, ?_,
    (heng hist target detour hacc).1, (heng hist target detour hacc).2, ?_, ?_, hacc, rfl⟩
  · simp only [hdet2]
    exact hdet
  · simp [sym_from_name, hfin]
  · rw [hs1]
    exact hfind
  · exact hlog.trans (List.prefix_append _ _)

/-- The witness of `resolve_after_install`: the fixture modules and the
accepting fixture engine, for the name `?add@@YAHHH@Z`. -/
theorem resolve_after_install_witness :
    (manager_ctor (fixture_env fixture_engine) 7 ⟨[], []⟩ []).outcome = .ok () ∧
    ∃ detour a hist target,
      (manager_ctor (fixture_env fixture_engine) 7 ⟨[], []⟩ []).internals.detours.find
        "?add@@YAHHH@Z" = some detour ∧
      (sym_from_name (manager_ctor (fixture_env fixture_engine) 7 ⟨[], []⟩ []).internals
        "?add@@YAHHH@Z").1 = .ok a ∧
      a ≠ 0 ∧ a ≠ detour ∧
      (build_index (fixture_env fixture_engine) ⟨[], []⟩).2.originals.find "?add@@YAHHH@Z"
        = some target ∧
      (hist ++ [ .MH_CreateHook target detour])
        <+: (manager_ctor (fixture_env fixture_engine) 7 ⟨[], []⟩ []).log ∧
      (fixture_env fixture_engine).engine.status hist (.MH_CreateHook target detour) = .MH_OK ∧
      a = (fixture_env fixture_engine).engine.original hist target detour :=
  ⟨rfl,
   resolve_after_install (fixture_env fixture_engine) 7 ⟨[], []⟩ []
     (fun t => List.Perm.refl t) (by simp [Table.keys])
     (fun _ target detour _ =>
        ⟨Nat.succ_ne_zero (target + detour),
         Nat.ne_of_gt (Nat.lt_succ_of_le (Nat.le_add_left detour target))⟩)
     rfl "?add@@YAHHH@Z" (by decide)⟩

/-- C3, as stated, fails: with two detour pairs and an engine that refuses the
second `MH_CreateHook`, the constructor throws the install error, but nothing
is rolled back. The originals table still maps the first name to the
trampoline of the first redirection (not to its pre-hook address
`1073742080`), and the log holds no `MH_Uninitialize` and no other request
after the refused one: the engine still holds the first redirection and its
global state. -/
theorem rollback_counterexample :
    (manager_ctor (fixture_env fixture_refusing_engine) 7 ⟨[], []⟩ []).outcome
      = .error (.minhook (.OtherFailure 8)) ∧
    (build_index (fixture_env fixture_refusing_engine) ⟨[], []⟩).2.originals.find "?add@@YAHHH@Z"
      = some 1073742080 ∧
    (manager_ctor (fixture_env fixture_refusing_engine) 7 ⟨[], []⟩ []).internals.originals.find
      "?add@@YAHHH@Z" = some (fixture_refusing_engine.original [ .MH_Initialize] 1073742080 1879048448) ∧
    (manager_ctor (fixture_env fixture_refusing_engine) 7 ⟨[], []⟩ []).internals.originals.find
      "?add@@YAHHH@Z" = some 2952790529 ∧
    (manager_ctor (fixture_env fixture_refusing_engine) 7 ⟨[], []⟩ []).log
      = [ .MH_Initialize, .MH_CreateHook 1073742080 1879048448,
          .MH_CreateHook 1073742336 1879048704] :=
  ⟨rfl, by decide, by decide, by decide, by decide⟩

end endstone.hook

namespace endstone.hook

/-- C3, amended: when the engine, having accepted initialize and the
redirections of the entries visited before, refuses the redirection of an
entry of the detours table, the constructor throws the install error with the
engine's status and leaves the handle uninitialized. The requests it has sent
are initialize, one `MH_CreateHook` per earlier entry and the refused one:
enable-all is never requested, so no created redirection has been enabled.
Nothing is rolled back: no disable or uninitialize request is sent, and the
originals table maps the name of every earlier entry to the trampoline of its
accepted redirection. -/
theorem install_refusal_keeps_state (env : Env) (h_library : Addr) (s s1 s2 : internals)
    (log log2 : List Request) (pre post : List (String × Addr)) (name : String)
    (detour target : Addr)
    (hiter : ∀ t, (env.iteration t).Perm t)
    (hnodup : (Table.keys s.detours).Nodup)
    (hidx : build_index env s = (.ok (), s1))
    (hinit : env.engine.status log .MH_Initialize = .MH_OK)
    (hsplit : env.iteration s1.detours = pre ++ (name, detour) :: post)
    (hpre : install_loop env.engine pre s1 (log ++ [ .MH_Initialize]) = (.ok (), s2, log2))
    (htarget : s1.originals.find name = some target)
    (hrefuse : env.engine.status log2 (.MH_CreateHook target detour) ≠ .MH_OK) :
    (manager_ctor env h_library s log).outcome
      = .error (.minhook (env.engine.status log2 (.MH_CreateHook target detour))) ∧
    (manager_ctor env h_library s log).self.initialized_ = false ∧
    (∃ creates : List (Addr × Addr), creates.length = pre.length ∧
      (manager_ctor env h_library s log).log
        = log ++ [ .MH_Initialize] ++ creates.map create_request
            ++ [ .MH_CreateHook target detour]) ∧
    (∃ reqs, (manager_ctor env h_library s log).log = log ++ reqs ∧
      .MH_EnableHook_ALL ∉ reqs ∧ .MH_DisableHook_ALL ∉ reqs ∧ Request.MH_Uninitialize ∉ reqs) ∧
    (∀ n d, (n, d) ∈ pre → ∃ hist t,
      (hist ++ [ .MH_CreateHook t d]) <+: (manager_ctor env h_library s log).log ∧
      env.engine.status hist (.MH_CreateHook t d) = .MH_OK ∧
      (manager_ctor env h_library s log).internals.originals.find n
        = some (env.engine.original hist t d)) := by
  have hnd := iteration_keys_nodup env s hiter hnodup
  rw [hidx] at hnd
  simp only [hsplit, List.map_append, List.map_cons] at hnd
  have hndpre : (pre.map Prod.fst).Nodup := (List.nodup_append.mp hnd).1
  have hname : name ∉ pre.map Prod.fst := by
    intro hc
    exact (List.nodup_append.mp hnd).2.2 hc (List.mem_cons_self _ _)
  have hfind2 : s2.originals.find name = some target := by
    have := install_loop_find_other env.engine pre s1 (log ++ [ .MH_Initialize]) name hname
    rw [hpre] at this
    rw [this]
    exact htarget
  have hloop : install_loop env.engine (env.iteration s1.detours) s1 (log ++ [ .MH_Initialize])
      = (.error (.minhook (env.engine.status log2 (.MH_CreateHook target detour))), s2,
          log2 ++ [ .MH_CreateHook target detour]) := by
    rw [hsplit, install_loop_append env.engine pre _ s1 s2 _ log2 hpre]
    exact install_loop_cons_refused env.engine name detour target post s2 log2 hfind2 hrefuse
  rw [manager_ctor_loop_error env h_library s s1 s2 log _ _ hidx hinit hloop]
  obtain ⟨creates, hlog, _, hshape⟩ :=
    install_loop_log_shape env.engine pre s1 (log ++ [ .MH_Initialize])
  rw [hpre] at hlog hshape
  simp only at hlog
  have hlen : creates.length = pre.length := by
    have := congrArg List.length (hshape rfl).1
    simpa using this
  refine ⟨rfl, rfl, ⟨creates, hlen, ?_⟩, ?_, ?_⟩
  · simp only [hlog]
  · refine ⟨[ .MH_Initialize] ++ creates.map create_request ++ [ .MH_CreateHook target detour],
      ?_, ?_, ?_, ?_⟩
    · simp only [hlog, List.append_assoc]
    · simp [create_request]
    · simp [create_request]
    · simp [create_request]
  · intro n d hmem
    obtain ⟨hist, t, _, _, hpfx, hacc, hfin⟩ :=
      install_loop_records env.engine pre s1 s2 _ log2 hpre hndpre n d hmem
    exact ⟨hist, t, hpfx.trans (List.prefix_append _ _), hacc, hfin⟩

/-- The witness of `install_refusal_keeps_state`: the fixture modules with the
engine that refuses the second redirection. -/
theorem install_refusal_keeps_state_witness :
    (manager_ctor (fixture_env fixture_refusing_engine) 7 ⟨[], []⟩ []).self.initialized_ = false ∧
    ∃ reqs, (manager_ctor (fixture_env fixture_refusing_engine) 7 ⟨[], []⟩ []).log = [] ++ reqs ∧
      .MH_EnableHook_ALL ∉ reqs ∧ .MH_DisableHook_ALL ∉ reqs ∧ Request.MH_Uninitialize ∉ reqs :=
  have h := install_refusal_keeps_state (fixture_env fixture_refusing_engine) 7 ⟨[], []⟩
    (build_index (fixture_env fixture_refusing_engine) ⟨[], []⟩).2
    (install_loop fixture_refusing_engine [("?add@@YAHHH@Z", 1879048448)]
      (build_index (fixture_env fixture_refusing_engine) ⟨[], []⟩).2 [ .MH_Initialize]).2.1
    [] [ .MH_Initialize, .MH_CreateHook 1073742080 1879048448]
    [("?add@@YAHHH@Z", 1879048448)] [] "?getValue@Widget@@QEBAHXZ" 1879048704 1073742336
    (fun t => List.Perm.refl t) (by simp [Table.keys]) rfl rfl rfl rfl rfl (by decide)
  ⟨h.2.1, h.2.2.2.1⟩

end endstone.hook

namespace endstone.hook

/-- C9, as stated, fails: when `UnDecorateSymbolName` fails while the symbols
of the target module are enumerated, the constructor throws before it reaches
`MH_Initialize`, and the run sends no request at all. -/
theorem request_sequence_counterexample :
    (manager_ctor fixture_failing_env 7 ⟨[], []⟩ []).outcome = .error (.undecorate_failed 87) ∧
    (manager_ctor fixture_failing_env 7 ⟨[], []⟩ []).log = [] ∧
    .MH_Initialize ∉ (manager_ctor fixture_failing_env 7 ⟨[], []⟩ []).log :=
  ⟨rfl, by decide, by decide⟩

/-- C9, amended: a run of the constructor in which the symbol enumeration
throws sends no request. In every other run the requests are one initialize,
then `MH_CreateHook` requests, at most one per entry of the detours table,
then at most one enable-all, and nothing after it. Enable-all is requested
only when the engine accepted initialize and there was exactly one
`MH_CreateHook` per entry of the detours table, with that entry's detour, each
accepted by the engine. A run that returns has requested enable-all, and the
handle is marked installed exactly when the run returns, which is only after
the engine accepted enable-all. -/
theorem ctor_request_sequence (env : Env) (h_library : Addr) (s : internals)
    (log : List Request) (hiter : ∀ t, (env.iteration t).Perm t) :
    (∀ e s1, build_index env s = (.error e, s1) →
      (manager_ctor env h_library s log).log = log ∧
      (manager_ctor env h_library s log).outcome = .error e ∧
      (manager_ctor env h_library s log).self.initialized_ = false) ∧
    (∀ s1, build_index env s = (.ok (), s1) →
      ∃ (creates : List (Addr × Addr)) (tail : List Request),
        (manager_ctor env h_library s log).log
          = log ++ [ .MH_Initialize] ++ creates.map create_request ++ tail ∧
        (tail = [] ∨ tail = [ .MH_EnableHook_ALL]) ∧
        creates.length ≤ s1.detours.length ∧
        (tail = [ .MH_EnableHook_ALL] →
          env.engine.status log .MH_Initialize = .MH_OK ∧
          creates.length = s1.detours.length ∧
          creates.map Prod.snd = (env.iteration s1.detours).map Prod.snd ∧
          ∀ pre c post, creates = pre ++ c :: post →
            env.engine.status (log ++ [ .MH_Initialize] ++ pre.map create_request)
              (create_request c) = .MH_OK) ∧
        ((manager_ctor env h_library s log).outcome = .ok () → tail = [ .MH_EnableHook_ALL]) ∧
        ((manager_ctor env h_library s log).self.initialized_ = true ↔
          (manager_ctor env h_library s log).outcome = .ok ()) ∧
        ((manager_ctor env h_library s log).self.initialized_ = true →
          env.engine.status (log ++ [ .MH_Initialize] ++ creates.map create_request)
            .MH_EnableHook_ALL = .MH_OK)) := by
  refine ⟨?_, ?_⟩
  · intro e s1 hb
    rw [manager_ctor_index_error env h_library s s1 log e hb]
    exact ⟨rfl, rfl, rfl⟩
  · intro s1 hb
    have hlen : (env.iteration s1.detours).length = s1.detours.length := (hiter _).length_eq
    by_cases hst : env.engine.status log .MH_Initialize = .MH_OK
    · obtain ⟨creates, hlog, hle, hshape⟩ :=
        install_loop_log_shape env.engine (env.iteration s1.detours) s1 (log ++ [ .MH_Initialize])
      rcases hloop : install_loop env.engine (env.iteration s1.detours) s1 (log ++ [ .MH_Initialize])
        with ⟨_ | ⟨⟨⟩⟩, s2, log2⟩
      · rw [hloop] at hlog
        simp only at hlog
        rw [manager_ctor_loop_error env h_library s s1 s2 log log2 _ hb hst hloop]
        refine ⟨creates, [], ?_, Or.inl rfl, hlen ▸ hle, ?_, ?_, ?_, ?_⟩
        · simp [hlog]
        · intro h
          simp at h
        · intro h
          simp at h
        · simp
        · intro h
          simp at h
      · rw [hloop] at hlog hshape
        simp only at hlog hshape
        obtain ⟨hmap, hall⟩ := hshape trivial
        have hcount : creates.length = s1.detours.length := by
          have := congrArg List.length hmap
          simp only [List.length_map] at this
          rw [this, hlen]
        by_cases hen : env.engine.status log2 .MH_EnableHook_ALL = .MH_OK
        · rw [manager_ctor_installed env h_library s s1 s2 log log2 hb hst hloop hen]
          refine ⟨creates, [ .MH_EnableHook_ALL], ?_, Or.inr rfl, hlen ▸ hle, ?_, ?_, ?_, ?_⟩
          · simp [hlog]
          · intro _
            exact ⟨hst, hcount, hmap, hall⟩
          · intro _
            rfl
          · simp
          · intro _
            rw [← hlog]
            exact hen
        · rw [manager_ctor_enable_refused env h_library s s1 s2 log log2 hb hst hloop hen]
          refine ⟨creates, [ .MH_EnableHook_ALL], ?_, Or.inr rfl, hlen ▸ hle, ?_, ?_, ?_, ?_⟩
          · simp [hlog]
          · intro _
            exact ⟨hst, hcount, hmap, hall⟩
          · intro _
            rfl
          · simp
          · intro h
            simp at h
    · rw [manager_ctor_init_refused env h_library s s1 log hb hst]
      refine ⟨[], [], by simp, Or.inl rfl, by simp, ?_, ?_, ?_, ?_⟩
      · intro h
        simp at h
      · intro h
        simp at h
      · simp
      · intro h
        simp at h

/-- The witness of `ctor_request_sequence`: the run on the fixture modules
with the accepting engine. -/
theorem ctor_request_sequence_witness :
    ∃ (creates : List (Addr × Addr)) (tail : List Request),
      (manager_ctor (fixture_env fixture_engine) 7 ⟨[], []⟩ []).log
        = [] ++ [ .MH_Initialize] ++ creates.map create_request ++ tail ∧
      (tail = [] ∨ tail = [ .MH_EnableHook_ALL]) ∧
      creates.length ≤ (build_index (fixture_env fixture_engine) ⟨[], []⟩).2.detours.length :=
  have h := (ctor_request_sequence (fixture_env fixture_engine) 7 ⟨[], []⟩ []
    (fun t => List.Perm.refl t)).2 (build_index (fixture_env fixture_engine) ⟨[], []⟩).2 rfl
  h.elim fun creates h2 => h2.elim fun tail h3 => ⟨creates, tail, h3.1, h3.2.1, h3.2.2.1⟩

end endstone.hook
